import Mathlib

/-!
Verification of a minimal proof-of-work blockchain (Rust source: main.rs).

The embedding below is a shallow translation of the source:
- SHA-256 (FIPS 180-4) is implemented executably over lists of byte values,
  mirroring the sha2 crate call used by the source, and its hex rendering
  mirrors the lowercase hex formatting of the digest.
- Rust u64 fields become Nat, the i64 timestamp becomes Int; the claims under
  study never exercise 64-bit wraparound.
- The infinite mining loop becomes a fuel-indexed search returning Option;
  the panic of try_add_block on an empty chain becomes the value none.
- The constant difficulty string of the source is exposed as a parameter
  (the source value is DIFFICULTY_PREFIX below); all theorems quantify over
  it, hence cover the source instantiation.
-/

/-! ## SHA-256 over byte lists -/

/-- 2^32, the modulus of 32-bit words. -/
def M32 : Nat := 4294967296

/-- Right rotation of a 32-bit word by n bits. -/
def rotr (n x : Nat) : Nat := ((x >>> n) ||| (x <<< (32 - n))) % M32

/-- SHA-256 big sigma 0. -/
def bigS0 (x : Nat) : Nat := (rotr 2 x) ^^^ (rotr 13 x) ^^^ (rotr 22 x)

/-- SHA-256 big sigma 1. -/
def bigS1 (x : Nat) : Nat := (rotr 6 x) ^^^ (rotr 11 x) ^^^ (rotr 25 x)

/-- SHA-256 small sigma 0. -/
def smallS0 (x : Nat) : Nat := (rotr 7 x) ^^^ (rotr 18 x) ^^^ (x >>> 3)

/-- SHA-256 small sigma 1. -/
def smallS1 (x : Nat) : Nat := (rotr 17 x) ^^^ (rotr 19 x) ^^^ (x >>> 10)

/-- SHA-256 choice function; complement is xor with the all-ones word. -/
def chF (x y z : Nat) : Nat := (x &&& y) ^^^ ((x ^^^ (M32 - 1)) &&& z)

/-- SHA-256 majority function. -/
def majF (x y z : Nat) : Nat := (x &&& y) ^^^ (x &&& z) ^^^ (y &&& z)

/-- The eight 32-bit words of a SHA-256 state. -/
structure Hash8 where
  a : Nat
  b : Nat
  c : Nat
  d : Nat
  e : Nat
  f : Nat
  g : Nat
  h : Nat
  deriving DecidableEq

/-- The 64 SHA-256 round constants of FIPS 180-4 (fractional parts of the
cube roots of the first 64 primes), written in decimal. -/
def K256 : List Nat :=
  [1116352408, 1899447441, 3049323471, 3921009573, 961987163,
   1508970993, 2453635748, 2870763221, 3624381080, 310598401,
   607225278, 1426881987, 1925078388, 2162078206, 2614888103,
   3248222580, 3835390401, 4022224774, 264347078, 604807628,
   770255983, 1249150122, 1555081692, 1996064986, 2554220882,
   2821834349, 2952996808, 3210313671, 3336571891, 3584528711,
   113926993, 338241895, 666307205, 773529912, 1294757372,
   1396182291, 1695183700, 1986661051, 2177026350, 2456956037,
   2730485921, 2820302411, 3259730800, 3345764771, 3516065817,
   3600352804, 4094571909, 275423344, 430227734, 506948616,
   659060556, 883997877, 958139571, 1322822218, 1537002063,
   1747873779, 1955562222, 2024104815, 2227730452, 2361852424,
   2428436474, 2756734187, 3204031479, 3329325298]

/-- The SHA-256 initial state of FIPS 180-4 (fractional parts of the square
roots of the first 8 primes), written in decimal. -/
def H256 : Hash8 :=
  ⟨1779033703, 3144134277, 1013904242, 2773480762,
   1359893119, 2600822924, 528734635, 1541459225⟩

/-- Group a byte list into big-endian 32-bit words (discarding a trailing
fragment; inputs are always a multiple of 4 bytes long). -/
def toWords : List Nat → List Nat
  | b0 :: b1 :: b2 :: b3 :: rest =>
      (((b0 * 256 + b1) * 256 + b2) * 256 + b3) :: toWords rest
  | _ => []

/-- Extend a 16-word message schedule by k further words. -/
def extendW : List Nat → Nat → List Nat
  | w, 0 => w
  | w, k + 1 =>
      extendW
        (w ++ [(smallS1 (w.getD (w.length - 2) 0) + w.getD (w.length - 7) 0 +
                smallS0 (w.getD (w.length - 15) 0) + w.getD (w.length - 16) 0) % M32])
        k

/-- One SHA-256 compression round, consuming one (constant, schedule) pair. -/
def roundF (s : Hash8) (kw : Nat × Nat) : Hash8 :=
  let t1 := (s.h + bigS1 s.e + chF s.e s.f s.g + kw.1 + kw.2) % M32
  let t2 := (bigS0 s.a + majF s.a s.b s.c) % M32
  ⟨(t1 + t2) % M32, s.a, s.b, s.c, (s.d + t1) % M32, s.e, s.f, s.g⟩

/-- The SHA-256 compression function on one 64-byte block. -/
def compress (s : Hash8) (blockBytes : List Nat) : Hash8 :=
  let w := extendW (toWords blockBytes) 48
  let t := (K256.zip w).foldl roundF s
  ⟨(s.a + t.a) % M32, (s.b + t.b) % M32, (s.c + t.c) % M32, (s.d + t.d) % M32,
   (s.e + t.e) % M32, (s.f + t.f) % M32, (s.g + t.g) % M32, (s.h + t.h) % M32⟩

/-- Digest k successive 64-byte blocks of a padded message. -/
def sha256Iter (s : Hash8) (bytes : List Nat) : Nat → Hash8
  | 0 => s
  | k + 1 => sha256Iter (compress s (bytes.take 64)) (bytes.drop 64) (k)

/-- The 8-byte big-endian encoding of a length in bits. -/
def be64 (n : Nat) : List Nat :=
  [((n >>> 56) % 256), ((n >>> 48) % 256), ((n >>> 40) % 256), ((n >>> 32) % 256),
   ((n >>> 24) % 256), ((n >>> 16) % 256), ((n >>> 8) % 256), (n % 256)]

/-- SHA-256 padding: one 0x80 byte, zeros to 56 mod 64, then the bit length. -/
def padMsg (m : List Nat) : List Nat :=
  m ++ [128] ++ List.replicate ((119 - m.length % 64) % 64) 0 ++ be64 (8 * m.length)

/-- The UTF-8 bytes of one character (the encoding Rust strings hash). -/
def utf8Bytes (c : Char) : List Nat :=
  let n := c.toNat
  if n < 128 then [n]
  else if n < 2048 then [192 ||| (n >>> 6), 128 ||| (n &&& 63)]
  else if n < 65536 then
    [224 ||| (n >>> 12), 128 ||| ((n >>> 6) &&& 63), 128 ||| (n &&& 63)]
  else
    [240 ||| (n >>> 18), 128 ||| ((n >>> 12) &&& 63),
     128 ||| ((n >>> 6) &&& 63), 128 ||| (n &&& 63)]

/-- The UTF-8 bytes of a character list. -/
def charBytes : List Char → List Nat
  | [] => []
  | c :: cs => utf8Bytes c ++ charBytes cs

/-- The UTF-8 bytes of a string. -/
def strBytes (s : String) : List Nat := charBytes s.data

/-- The lowercase hex digit of a value below 16. -/
def hexChar (n : Nat) : Char :=
  Char.ofNat (if n < 10 then 48 + n else 87 + n)

/-- Render a byte list as lowercase hex, two digits per byte. -/
def bytesHexChars : List Nat → List Char
  | [] => []
  | b :: bs => hexChar ((b / 16) % 16) :: hexChar (b % 16) :: bytesHexChars bs

/-- The 32 bytes of a final SHA-256 state, big-endian per word. -/
def hashBytes (s : Hash8) : List Nat :=
  [((s.a >>> 24) % 256), ((s.a >>> 16) % 256), ((s.a >>> 8) % 256), (s.a % 256),
   ((s.b >>> 24) % 256), ((s.b >>> 16) % 256), ((s.b >>> 8) % 256), (s.b % 256),
   ((s.c >>> 24) % 256), ((s.c >>> 16) % 256), ((s.c >>> 8) % 256), (s.c % 256),
   ((s.d >>> 24) % 256), ((s.d >>> 16) % 256), ((s.d >>> 8) % 256), (s.d % 256),
   ((s.e >>> 24) % 256), ((s.e >>> 16) % 256), ((s.e >>> 8) % 256), (s.e % 256),
   ((s.f >>> 24) % 256), ((s.f >>> 16) % 256), ((s.f >>> 8) % 256), (s.f % 256),
   ((s.g >>> 24) % 256), ((s.g >>> 16) % 256), ((s.g >>> 8) % 256), (s.g % 256),
   ((s.h >>> 24) % 256), ((s.h >>> 16) % 256), ((s.h >>> 8) % 256), (s.h % 256)]

/-- SHA-256 of the UTF-8 bytes of a string, as a lowercase hex string: the
composition the source performs with the sha2 crate and lower-hex formatting. -/
def sha256hex (s : String) : String :=
  let m := padMsg (strBytes s)
  String.mk (bytesHexChars (hashBytes (sha256Iter H256 m (m.length / 64))))

/-- FIPS 180-4 test vector, checking the SHA-256 embedding end to end. -/
theorem sha256hex_abc :
    sha256hex ("abc") =
      "ba7816bf8f01cfea414140de5dae2223b00361a396177a9cb410ff61f20015ad" := by
  decide

/-! ## The blockchain data model and operations (translated from main.rs) -/

/-- struct Block of the source: u64 fields as Nat, the i64 timestamp as Int. -/
structure Block where
  id : Nat
  hash : String
  previous_hash : String
  timestamp : Int
  data : String
  nonce : Nat
  deriving DecidableEq

/-- const DIFFICULTY_PREFIX of the source. -/
def DIFFICULTY_PREFIX : String := "00000"

/-- str::starts_with of Rust on the hex digests at hand: the first string
begins with the second, character for character. -/
def strStartsWith (s pre : String) : Bool := pre.data.isPrefixOf s.data

/-- Block::hash of the source: concatenate the decimal renderings of id,
timestamp and nonce with the two strings, in field order with no delimiter
(format! with five adjacent placeholders), then SHA-256 in lowercase hex. -/
def computeHash (id : Nat) (previous_hash : String) (timestamp : Int)
    (data : String) (nonce : Nat) : String :=
  sha256hex (Nat.repr id ++ previous_hash ++ Int.repr timestamp ++ data ++ Nat.repr nonce)

/-- The nonce search loop of Block::mine, indexed by the starting nonce and
by fuel bounding the number of trials; the unbounded source loop is the
limit of this search as fuel grows. -/
def mineAux (difficulty : String) (id : Nat) (previous_hash : String)
    (timestamp : Int) (data : String) : Nat → Nat → Option (String × Nat)
  | 0, _ => none
  | fuel + 1, nonce =>
      let hash := computeHash id previous_hash timestamp data nonce
      if strStartsWith hash difficulty then some (hash, nonce)
      else mineAux difficulty id previous_hash timestamp data fuel (nonce + 1)

/-- Block::mine of the source: brute-force search from nonce 0. -/
def mine (difficulty : String) (id : Nat) (previous_hash : String)
    (timestamp : Int) (data : String) (fuel : Nat) : Option (String × Nat) :=
  mineAux difficulty id previous_hash timestamp data fuel 0

/-- Blockchain::is_block_valid of the source: the four-way conjunction, in
the source order. -/
def is_block_valid (difficulty : String) (block previous_block : Block) : Bool :=
  (block.id == previous_block.id + 1) &&
  strStartsWith block.hash difficulty &&
  (block.previous_hash == previous_block.hash) &&
  (computeHash block.id block.previous_hash block.timestamp block.data block.nonce
    == block.hash)

/-- Blockchain::is_chain_valid of the source: the index loop over 1..len
checking each block against its predecessor, first pair first, stopping at
the first failure. -/
def is_chain_valid (difficulty : String) : List Block → Bool
  | b0 :: b1 :: rest => is_block_valid difficulty b1 b0 && is_chain_valid difficulty (b1 :: rest)
  | _ => true

/-- Blockchain::try_add_block of the source. The source panics (expect) when
the chain is empty: that is the value none here. Otherwise the candidate is
checked against the last block and pushed exactly when valid. -/
def try_add_block (difficulty : String) (blocks : List Block) (block : Block) :
    Option (List Block) :=
  match blocks.getLast? with
  | none => none
  | some previous_block =>
      if is_block_valid difficulty block previous_block
      then some (blocks ++ [block])
      else some blocks

/-- Blockchain::create_genesis of the source: mine id 0 with the literal
sentinel strings and push the resulting block. The captured wall-clock time
is the timestamp argument; none when the fuel ran out before a hit. -/
def create_genesis (difficulty : String) (timestamp : Int) (fuel : Nat)
    (blocks : List Block) : Option (List Block) :=
  match mine difficulty 0 ("genesis") timestamp ("genesis") fuel with
  | none => none
  | some p => some (blocks ++ [⟨0, p.1, "genesis", timestamp, "genesis", p.2⟩])

/-- The chains a caller can build: create_genesis on the fresh empty chain,
then any finite sequence of try_add_block calls (main.rs builds exactly
such chains). -/
inductive BuiltChain (difficulty : String) : List Block → Prop where
  | genesis : ∀ (timestamp : Int) (fuel : Nat) (c : List Block),
      create_genesis difficulty timestamp fuel [] = some c → BuiltChain difficulty c
  | step : ∀ (c : List Block) (block : Block) (c2 : List Block),
      BuiltChain difficulty c → try_add_block difficulty c block = some c2 →
      BuiltChain difficulty c2

/-! ## Lemmas about validation and the mining loop -/

/-- A default block, used only as the out-of-range filler of List.getD. -/
def defBlock : Block := ⟨0, "", "", 0, "", 0⟩

theorem block_valid_iff (d : String) (b p : Block) :
    is_block_valid d b p = true ↔
      b.id = p.id + 1 ∧ strStartsWith b.hash d = true ∧ b.previous_hash = p.hash ∧
      computeHash b.id b.previous_hash b.timestamp b.data b.nonce = b.hash := by
  simp [is_block_valid, Bool.and_eq_true, and_assoc]

theorem chain_valid_cons (d : String) (a b : Block) (l : List Block) :
    is_chain_valid d (a :: b :: l) =
      (is_block_valid d b a && is_chain_valid d (b :: l)) := rfl

theorem chain_valid_chain' (d : String) :
    ∀ c : List Block,
      (is_chain_valid d c = true ↔
        List.Chain' (fun p b => is_block_valid d b p = true) c)
  | [] => by simp [is_chain_valid]
  | [b] => by simp [is_chain_valid]
  | a :: b :: l => by
      rw [chain_valid_cons, Bool.and_eq_true, List.chain'_cons,
        chain_valid_chain' d (b :: l)]

theorem chain_valid_getD (d : String) :
    ∀ c : List Block,
      (is_chain_valid d c = true ↔
        ∀ i : Nat, i + 1 < c.length →
          is_block_valid d (c.getD (i + 1) defBlock) (c.getD i defBlock) = true)
  | [] => by simp [is_chain_valid]
  | [b] => by simp [is_chain_valid]
  | a :: b :: l => by
      rw [chain_valid_cons, Bool.and_eq_true, chain_valid_getD d (b :: l)]
      constructor
      · rintro ⟨h1, h2⟩ i hi
        match i with
        | 0 => simpa using h1
        | j + 1 =>
            simp only [List.getD_cons_succ]
            exact h2 j (by simpa using hi)
      · intro h
        refine ⟨by simpa using h 0 (by simp), fun j hj => ?_⟩
        simpa using h (j + 1) (by simpa using hj)

theorem chain_valid_append (d : String) :
    ∀ (c : List Block) (p b : Block), c.getLast? = some p →
      is_chain_valid d (c ++ [b]) = (is_chain_valid d c && is_block_valid d b p)
  | [], p, b => by simp
  | [a], p, b => by
      intro h
      simp only [List.getLast?_singleton, Option.some.injEq] at h
      subst h
      simp [is_chain_valid]
  | a :: a2 :: l, p, b => by
      intro h
      rw [List.getLast?_cons_cons] at h
      have ih := chain_valid_append d (a2 :: l) p b h
      simp only [List.cons_append] at ih ⊢
      rw [chain_valid_cons, ih, chain_valid_cons, Bool.and_assoc]

theorem mineAux_spec (d : String) (i : Nat) (ph : String) (ts : Int) (da : String) :
    ∀ (fuel start : Nat) (dg : String) (n : Nat),
      mineAux d i ph ts da fuel start = some (dg, n) →
      start ≤ n ∧ dg = computeHash i ph ts da n ∧ strStartsWith dg d = true ∧
        ∀ m, start ≤ m → m < n → strStartsWith (computeHash i ph ts da m) d = false
  | 0, start, dg, n => by simp [mineAux]
  | fuel + 1, start, dg, n => by
      intro h
      rw [mineAux] at h
      by_cases hc : strStartsWith (computeHash i ph ts da start) d = true
      · rw [if_pos hc] at h
        simp only [Option.some.injEq, Prod.mk.injEq] at h
        obtain ⟨h1, h2⟩ := h
        subst h2
        exact ⟨le_refl start, h1.symm, h1 ▸ hc, fun m hm1 hm2 => absurd hm1 (by omega)⟩
      · rw [if_neg hc] at h
        obtain ⟨h1, h2, h3, h4⟩ := mineAux_spec d i ph ts da fuel (start + 1) dg n h
        refine ⟨by omega, h2, h3, fun m hm1 hm2 => ?_⟩
        rcases Nat.eq_or_lt_of_le hm1 with he | hl
        · subst he
          exact Bool.not_eq_true _ ▸ hc
        · exact h4 m hl hm2

theorem builtChain_valid_aux (d : String) (c : List Block) (h : BuiltChain d c) :
    c ≠ [] ∧ is_chain_valid d c = true := by
  induction h with
  | genesis ts fuel c hc =>
      unfold create_genesis at hc
      cases hm : mine d 0 ("genesis") ts ("genesis") fuel with
      | none => rw [hm] at hc; exact absurd hc (by simp)
      | some p =>
          rw [hm] at hc
          simp only [Option.some.injEq, List.nil_append] at hc
          subst hc
          exact ⟨by simp, rfl⟩
  | step c block c2 hb ht ih =>
      obtain ⟨hne, hv⟩ := ih
      unfold try_add_block at ht
      cases hl : c.getLast? with
      | none => rw [hl] at ht; exact absurd ht (by simp)
      | some p =>
          rw [hl] at ht
          simp only [] at ht
          by_cases hbv : is_block_valid d block p = true
          · rw [if_pos hbv] at ht
            simp only [Option.some.injEq] at ht
            subst ht
            exact ⟨by simp, by rw [chain_valid_append d c p block hl, hv, hbv]; rfl⟩
          · rw [if_neg hbv] at ht
            simp only [Option.some.injEq] at ht
            subst ht
            exact ⟨hne, hv⟩

/-! ## Decimal renderings are injective

The hash input concatenates fields with no delimiter; the claims about
tampering need that changing one field changes the concatenated string.
For the numeric fields this rests on injectivity of the decimal rendering. -/

/-- The value a decimal digit list denotes (48 is the code of the digit 0). -/
def decValChars : List Char → Nat
  | [] => 0
  | c :: cs => (c.toNat - 48) * 10 ^ cs.length + decValChars cs

theorem digitChar_toNat (k : Nat) (h : k < 10) : (Nat.digitChar k).toNat = 48 + k := by
  interval_cases k <;> decide

theorem toDigitsCore_val :
    ∀ (fuel n : Nat) (ds : List Char), n < fuel →
      decValChars (Nat.toDigitsCore 10 fuel n ds) = n * 10 ^ ds.length + decValChars ds
  | 0, n, ds => by omega
  | fuel + 1, n, ds => by
      intro h
      rw [Nat.toDigitsCore]
      by_cases h0 : n / 10 = 0
      · rw [if_pos h0]
        simp only [decValChars]
        rw [digitChar_toNat (n % 10) (Nat.mod_lt _ (by omega))]
        have hn : 48 + n % 10 - 48 = n := by omega
        rw [hn]
      · rw [if_neg h0]
        have hlt : n / 10 < fuel := by
          have h1 : n / 10 < n := Nat.div_lt_self (by omega) (by omega)
          omega
        rw [toDigitsCore_val fuel (n / 10) _ hlt]
        simp only [decValChars, List.length_cons]
        rw [digitChar_toNat (n % 10) (Nat.mod_lt _ (by omega))]
        have hnm : 48 + n % 10 - 48 = n % 10 := by omega
        rw [hnm]
        have h2 : 10 * (n / 10) + n % 10 = n := Nat.div_add_mod n 10
        calc n / 10 * 10 ^ (ds.length + 1) + (n % 10 * 10 ^ ds.length + decValChars ds)
            = (10 * (n / 10) + n % 10) * 10 ^ ds.length + decValChars ds := by ring
          _ = n * 10 ^ ds.length + decValChars ds := by rw [h2]

theorem natRepr_inj : Function.Injective Nat.repr := by
  intro a b h
  have ha := toDigitsCore_val (a + 1) a [] (by omega)
  have hb := toDigitsCore_val (b + 1) b [] (by omega)
  have hd : Nat.toDigitsCore 10 (a + 1) a [] = Nat.toDigitsCore 10 (b + 1) b [] := by
    have hc := congrArg String.data h
    simpa [Nat.repr, Nat.toDigits, List.asString] using hc
  rw [hd, hb] at ha
  simpa [decValChars] using ha.symm

theorem toDigitsCore_head :
    ∀ (fuel n : Nat) (ds : List Char), 0 < fuel →
      ∃ k r, k < 10 ∧ Nat.toDigitsCore 10 fuel n ds = Nat.digitChar k :: r
  | 0, n, ds => by omega
  | fuel + 1, n, ds => by
      intro _
      rw [Nat.toDigitsCore]
      by_cases h0 : n / 10 = 0
      · rw [if_pos h0]
        exact ⟨n % 10, ds, Nat.mod_lt _ (by omega), rfl⟩
      · rw [if_neg h0]
        by_cases hf : 0 < fuel
        · exact toDigitsCore_head fuel (n / 10) (Nat.digitChar (n % 10) :: ds) hf
        · have hz : fuel = 0 := by omega
          subst hz
          exact ⟨n % 10, ds, Nat.mod_lt _ (by omega), rfl⟩

theorem str_ext (s t : String) (h : s.data = t.data) : s = t := by
  cases s
  cases t
  exact congrArg String.mk (by simpa using h)

theorem str_data_append (s t : String) : (s ++ t).data = s.data ++ t.data := by
  cases s
  cases t
  rfl

theorem natRepr_ne_neg (m k : Nat) : Nat.repr m ≠ "-" ++ Nat.repr k := by
  intro h
  obtain ⟨j, r, hj, hr⟩ := toDigitsCore_head (m + 1) m [] (by omega)
  have hm : (Nat.repr m).data = Nat.digitChar j :: r := by
    simpa [Nat.repr, Nat.toDigits, List.asString] using hr
  have hd := congrArg String.data h
  rw [str_data_append, hm] at hd
  have hneg : ("-" : String).data = [Char.ofNat 45] := rfl
  rw [hneg] at hd
  simp only [List.cons_append, List.nil_append] at hd
  injection hd with h1 _
  have h2 := congrArg Char.toNat h1
  rw [digitChar_toNat j hj] at h2
  have h3 : (Char.ofNat 45).toNat = 45 := rfl
  rw [h3] at h2
  omega

theorem intRepr_inj : Function.Injective Int.repr := by
  intro a b h
  match a, b with
  | Int.ofNat m, Int.ofNat k =>
      simp only [Int.repr] at h
      exact congrArg Int.ofNat (natRepr_inj h)
  | Int.ofNat m, Int.negSucc k => exact absurd h (natRepr_ne_neg m (Nat.succ k))
  | Int.negSucc m, Int.ofNat k => exact absurd h.symm (natRepr_ne_neg k (Nat.succ m))
  | Int.negSucc m, Int.negSucc k =>
      simp only [Int.repr] at h
      have hd := congrArg String.data h
      rw [str_data_append, str_data_append] at hd
      have ht := List.append_cancel_left hd
      have hmk : Nat.succ m = Nat.succ k := natRepr_inj (str_ext _ _ ht)
      exact congrArg Int.negSucc (Nat.succ.inj hmk)

theorem str_append_cancel_left (a x y : String) (h : a ++ x = a ++ y) : x = y := by
  have hd := congrArg String.data h
  rw [str_data_append, str_data_append] at hd
  exact str_ext _ _ (List.append_cancel_left hd)

theorem str_append_cancel_right (x y c : String) (h : x ++ c = y ++ c) : x = y := by
  have hd := congrArg String.data h
  rw [str_data_append, str_data_append] at hd
  exact str_ext _ _ (List.append_cancel_right hd)

/-! ## Shape of the rendered digest -/

theorem hexChar_mem (n : Nat) (h : n < 16) : hexChar n ∈ ("0123456789abcdef").data := by
  interval_cases n <;> decide

theorem bytesHexChars_mem :
    ∀ (bs : List Nat) (ch : Char), ch ∈ bytesHexChars bs → ch ∈ ("0123456789abcdef").data
  | [], ch => by simp [bytesHexChars]
  | b :: bs, ch => by
      intro h
      simp only [bytesHexChars, List.mem_cons] at h
      rcases h with h | h | h
      · exact h ▸ hexChar_mem _ (Nat.mod_lt _ (by omega))
      · exact h ▸ hexChar_mem _ (Nat.mod_lt _ (by omega))
      · exact bytesHexChars_mem bs ch h

theorem sha256hex_length (s : String) : (sha256hex s).length = 64 := rfl

theorem sha256hex_chars (s : String) (ch : Char) (h : ch ∈ (sha256hex s).data) :
    ch ∈ ("0123456789abcdef").data :=
  bytesHexChars_mem _ ch h

/-! ## The claims -/

/-- C3: is_block_valid returns true exactly when the candidate's id is the
predecessor's id plus one, the candidate's hash satisfies the difficulty
predicate, the candidate's previous_hash equals the predecessor's hash, and
recomputing the hash over the candidate's own five fields reproduces its
stored hash. The embedding is a pure function, so the call mutates nothing. -/
theorem claim3_is_block_valid_iff (difficulty : String) (b p : Block) :
    is_block_valid difficulty b p = true ↔
      b.id = p.id + 1 ∧ strStartsWith b.hash difficulty = true ∧
      b.previous_hash = p.hash ∧
      computeHash b.id b.previous_hash b.timestamp b.data b.nonce = b.hash :=
  block_valid_iff difficulty b p

/-- C5: the block hash concatenates the decimal renderings of id, timestamp
and nonce with the two string fields, in field order with no delimiters,
applies SHA-256 and renders the digest in lowercase hex: the result always
has exactly 64 characters, all lowercase hex digits. As a pure function it
returns the same digest whenever it is applied to equal inputs. -/
theorem claim5_hash_shape (id : Nat) (previous_hash : String) (timestamp : Int)
    (data : String) (nonce : Nat) :
    computeHash id previous_hash timestamp data nonce =
      sha256hex (Nat.repr id ++ previous_hash ++ Int.repr timestamp ++ data ++
        Nat.repr nonce) ∧
    (computeHash id previous_hash timestamp data nonce).length = 64 ∧
    ∀ ch ∈ (computeHash id previous_hash timestamp data nonce).data,
      ch ∈ ("0123456789abcdef").data :=
  ⟨rfl, sha256hex_length _, fun ch h => sha256hex_chars _ ch h⟩

/-- C8: is_chain_valid is true exactly when every adjacent pair of the chain
satisfies is_block_valid (stated both over adjacent pairs and over indices
i, i+1), and on a chain with at least one pair it is the conjunction of the
first pair's validity with the validity of the rest, so the scan proceeds in
increasing index order and stops at the first failing pair. The embedding
is a pure function: the call performs no mutation. -/
theorem claim8_is_chain_valid_iff (difficulty : String) :
    (∀ c : List Block,
      is_chain_valid difficulty c = true ↔
        List.Chain' (fun p b => is_block_valid difficulty b p = true) c) ∧
    (∀ c : List Block,
      is_chain_valid difficulty c = true ↔
        ∀ i : Nat, i + 1 < c.length →
          is_block_valid difficulty (c.getD (i + 1) defBlock) (c.getD i defBlock) = true) ∧
    (∀ (a b : Block) (l : List Block),
      is_chain_valid difficulty (a :: b :: l) =
        (is_block_valid difficulty b a && is_chain_valid difficulty (b :: l))) :=
  ⟨chain_valid_chain' difficulty, chain_valid_getD difficulty,
   fun a b l => chain_valid_cons difficulty a b l⟩

/-- C9: try_add_block on the empty chain is the source's panic on reading
the tip (modelled as none): no candidate is ever appended and no default
predecessor is substituted, there is no chain state in which the call
returns. -/
theorem claim9_try_add_block_empty (difficulty : String) (b : Block) :
    try_add_block difficulty [] b = none := rfl

/-- C10: is_chain_valid never examines block 0 as a validation candidate:
replacing the data, timestamp and nonce of the head block by any values
while keeping its id, hash and previous_hash (and all later blocks) leaves
the result of is_chain_valid unchanged; in particular a chain whose genesis
data was tampered with after mining still validates. -/
theorem claim10_genesis_not_examined (difficulty : String) (b0 : Block)
    (t : Int) (dt : String) (n : Nat) :
    ∀ rest : List Block,
      is_chain_valid difficulty
          (⟨b0.id, b0.hash, b0.previous_hash, t, dt, n⟩ :: rest) =
        is_chain_valid difficulty (b0 :: rest)
  | [] => rfl
  | b1 :: l => by
      rw [chain_valid_cons, chain_valid_cons]
      exact rfl

/-- C1: every chain built by create_genesis on the fresh empty chain
followed by any finite sequence of try_add_block calls passes
is_chain_valid; equivalently every adjacent pair of such a chain satisfies
the four per-block conditions (successor id, hash link, difficulty, and
recomputability of the stored hash from the block's own fields). -/
theorem claim1_built_chain_valid (difficulty : String) (c : List Block)
    (h : BuiltChain difficulty c) :
    is_chain_valid difficulty c = true ∧
    List.Chain'
      (fun p b => b.id = p.id + 1 ∧ b.previous_hash = p.hash ∧
        strStartsWith b.hash difficulty = true ∧
        computeHash b.id b.previous_hash b.timestamp b.data b.nonce = b.hash) c := by
  obtain ⟨-, hv⟩ := builtChain_valid_aux difficulty c h
  refine ⟨hv, ((chain_valid_chain' difficulty c).mp hv).imp ?_⟩
  intro a b hab
  obtain ⟨g1, g2, g3, g4⟩ := (block_valid_iff difficulty b a).mp hab
  exact ⟨g1, g3, g2, g4⟩

set_option maxRecDepth 8000 in
/-- Closed instance of C1: the one-block chain created by create_genesis at
difficulty "" and timestamp 0 with fuel 1. -/
theorem claim1_witness :
    is_chain_valid ""
        [⟨0, "53436d494ed0a91e9989cb4aba0473c8e6b8837161e8ea018765ddaa983ec98c",
          "genesis", 0, "genesis", 0⟩] = true ∧
    List.Chain'
      (fun (p b : Block) => b.id = p.id + 1 ∧ b.previous_hash = p.hash ∧
        strStartsWith b.hash "" = true ∧
        computeHash b.id b.previous_hash b.timestamp b.data b.nonce = b.hash)
      [⟨0, "53436d494ed0a91e9989cb4aba0473c8e6b8837161e8ea018765ddaa983ec98c",
        "genesis", 0, "genesis", 0⟩] :=
  claim1_built_chain_valid "" _ (BuiltChain.genesis 0 1 _ (by decide))

/-- C2: on a non-empty chain, try_add_block appends the candidate as the
new last element exactly when is_block_valid holds against the current last
block; on success the chain is the old chain plus the candidate (length one
larger, every stored block unchanged), on failure (the silent drop, not a
panic) the chain is returned unchanged. -/
theorem claim2_try_add_block_gating (difficulty : String) (c : List Block)
    (b p : Block) (h : c.getLast? = some p) :
    (try_add_block difficulty c b = some (c ++ [b]) ↔
      is_block_valid difficulty b p = true) ∧
    (is_block_valid difficulty b p = false → try_add_block difficulty c b = some c) ∧
    (∀ c2, try_add_block difficulty c b = some c2 →
      (is_block_valid difficulty b p = true ∧ c2 = c ++ [b] ∧
        c2.length = c.length + 1 ∧
        ∀ i, i < c.length → c2.getD i defBlock = c.getD i defBlock) ∨
      (is_block_valid difficulty b p = false ∧ c2 = c)) := by
  unfold try_add_block
  rw [h]
  simp only []
  by_cases hbv : is_block_valid difficulty b p = true
  · rw [if_pos hbv]
    refine ⟨⟨fun _ => hbv, fun _ => rfl⟩, fun hf => absurd hbv (by simp [hf]), ?_⟩
    intro c2 hc2
    simp only [Option.some.injEq] at hc2
    subst hc2
    exact Or.inl ⟨hbv, rfl, by simp, fun i hi => List.getD_append c [b] defBlock i hi⟩
  · rw [if_neg hbv]
    have hf : is_block_valid difficulty b p = false := by
      rcases Bool.eq_false_or_eq_true (is_block_valid difficulty b p) with hx | hx
      · exact absurd hx hbv
      · exact hx
    refine ⟨⟨fun he => ?_, fun ht => absurd ht hbv⟩, fun _ => rfl, ?_⟩
    · simp only [Option.some.injEq] at he
      have := congrArg List.length he
      simp at this
    · intro c2 hc2
      simp only [Option.some.injEq] at hc2
      subst hc2
      exact Or.inr ⟨hf, rfl⟩

/-- Closed instance of C2: a one-block chain and a candidate whose id is
not the successor of the tip's id. -/
theorem claim2_witness :
    (try_add_block "" [⟨0, "x", "g", 0, "d", 0⟩] ⟨5, "y", "z", 0, "e", 0⟩ =
        some ([⟨0, "x", "g", 0, "d", 0⟩] ++ [⟨5, "y", "z", 0, "e", 0⟩]) ↔
      is_block_valid "" ⟨5, "y", "z", 0, "e", 0⟩ ⟨0, "x", "g", 0, "d", 0⟩ = true) ∧
    (is_block_valid "" ⟨5, "y", "z", 0, "e", 0⟩ ⟨0, "x", "g", 0, "d", 0⟩ = false →
      try_add_block "" [⟨0, "x", "g", 0, "d", 0⟩] ⟨5, "y", "z", 0, "e", 0⟩ =
        some [⟨0, "x", "g", 0, "d", 0⟩]) ∧
    (∀ c2, try_add_block "" [⟨0, "x", "g", 0, "d", 0⟩] ⟨5, "y", "z", 0, "e", 0⟩ =
        some c2 →
      (is_block_valid "" ⟨5, "y", "z", 0, "e", 0⟩ ⟨0, "x", "g", 0, "d", 0⟩ = true ∧
        c2 = [⟨0, "x", "g", 0, "d", 0⟩] ++ [⟨5, "y", "z", 0, "e", 0⟩] ∧
        c2.length = [(⟨0, "x", "g", 0, "d", 0⟩ : Block)].length + 1 ∧
        ∀ i, i < [(⟨0, "x", "g", 0, "d", 0⟩ : Block)].length →
          c2.getD i defBlock = [(⟨0, "x", "g", 0, "d", 0⟩ : Block)].getD i defBlock) ∨
      (is_block_valid "" ⟨5, "y", "z", 0, "e", 0⟩ ⟨0, "x", "g", 0, "d", 0⟩ = false ∧
        c2 = [⟨0, "x", "g", 0, "d", 0⟩])) :=
  claim2_try_add_block_gating "" [⟨0, "x", "g", 0, "d", 0⟩] ⟨5, "y", "z", 0, "e", 0⟩
    ⟨0, "x", "g", 0, "d", 0⟩ (by decide)

/-- C4: whenever the mining search returns a pair, the digest satisfies the
difficulty predicate, equals the hash recomputed at the returned nonce, and
the nonce is least: the search starts at 0 and increments by 1, so every
smaller nonce yields a digest failing the predicate. -/
theorem claim4_mine_spec (difficulty : String) (id : Nat) (previous_hash : String)
    (timestamp : Int) (data : String) (fuel : Nat) (digest : String) (nonce : Nat)
    (h : mine difficulty id previous_hash timestamp data fuel = some (digest, nonce)) :
    strStartsWith digest difficulty = true ∧
    digest = computeHash id previous_hash timestamp data nonce ∧
    ∀ m, m < nonce →
      strStartsWith (computeHash id previous_hash timestamp data m) difficulty = false := by
  obtain ⟨-, h2, h3, h4⟩ :=
    mineAux_spec difficulty id previous_hash timestamp data fuel 0 digest nonce h
  exact ⟨h3, h2, fun m hm => h4 m (Nat.zero_le m) hm⟩

set_option maxRecDepth 8000 in
/-- Closed instance of C4: mining the genesis parameters at difficulty ""
succeeds at nonce 0 with the recomputable digest. -/
theorem claim4_witness :
    mine "" 0 ("genesis") 0 ("genesis") 1 =
      some ("53436d494ed0a91e9989cb4aba0473c8e6b8837161e8ea018765ddaa983ec98c", 0) ∧
    (strStartsWith "53436d494ed0a91e9989cb4aba0473c8e6b8837161e8ea018765ddaa983ec98c" "" = true ∧
     "53436d494ed0a91e9989cb4aba0473c8e6b8837161e8ea018765ddaa983ec98c" =
       computeHash 0 ("genesis") 0 ("genesis") 0 ∧
     ∀ m, m < 0 → strStartsWith (computeHash 0 ("genesis") 0 ("genesis") m) "" = false) :=
  ⟨by decide,
   claim4_mine_spec "" 0 ("genesis") 0 ("genesis") 1
     "53436d494ed0a91e9989cb4aba0473c8e6b8837161e8ea018765ddaa983ec98c" 0 (by decide)⟩

/-- C6: whenever create_genesis on the fresh empty chain returns, the chain
holds exactly one block, with id 0, previous_hash "genesis", data "genesis",
the captured timestamp, a hash satisfying the difficulty predicate, and a
hash recomputable from the block's own five fields (it is produced by the
same mining procedure as any other block). -/
theorem claim6_create_genesis (difficulty : String) (timestamp : Int) (fuel : Nat)
    (c : List Block) (h : create_genesis difficulty timestamp fuel [] = some c) :
    ∃ b : Block, c = [b] ∧ b.id = 0 ∧ b.previous_hash = "genesis" ∧
      b.data = "genesis" ∧ b.timestamp = timestamp ∧
      strStartsWith b.hash difficulty = true ∧
      b.hash = computeHash b.id b.previous_hash b.timestamp b.data b.nonce := by
  unfold create_genesis at h
  cases hm : mine difficulty 0 ("genesis") timestamp ("genesis") fuel with
  | none => rw [hm] at h; exact absurd h (by simp)
  | some p =>
      rw [hm] at h
      simp only [Option.some.injEq, List.nil_append] at h
      subst h
      obtain ⟨-, h2, h3, -⟩ :=
        mineAux_spec difficulty 0 "genesis" timestamp "genesis" fuel 0 p.1 p.2 hm
      exact ⟨⟨0, p.1, "genesis", timestamp, "genesis", p.2⟩,
        rfl, rfl, rfl, rfl, rfl, h3, h2⟩

set_option maxRecDepth 8000 in
/-- Closed instance of C6: create_genesis at difficulty "", timestamp 0 and
fuel 1 yields the one-block chain with the recomputable digest. -/
theorem claim6_witness :
    create_genesis "" 0 1 [] = some
      [⟨0, "53436d494ed0a91e9989cb4aba0473c8e6b8837161e8ea018765ddaa983ec98c",
        "genesis", 0, "genesis", 0⟩] ∧
    ∃ b : Block,
      [(⟨0, "53436d494ed0a91e9989cb4aba0473c8e6b8837161e8ea018765ddaa983ec98c",
         "genesis", 0, "genesis", 0⟩ : Block)] = [b] ∧
      b.id = 0 ∧ b.previous_hash = "genesis" ∧ b.data = "genesis" ∧
      b.timestamp = 0 ∧ strStartsWith b.hash "" = true ∧
      b.hash = computeHash b.id b.previous_hash b.timestamp b.data b.nonce :=
  ⟨by decide, claim6_create_genesis "" 0 1 _ (by decide)⟩

/-! ## Tampering with a mined block -/

theorem chain_valid_pair (d : String) (p b : Block) :
    is_chain_valid d [p, b] = is_block_valid d b p := by
  simp [is_chain_valid]

/-- An explicit SHA-256 collision: two different preimages, equal digests. -/
def sha256Collision : Prop :=
  ∃ s1 s2 : String, s1 ≠ s2 ∧ sha256hex s1 = sha256hex s2

/-- The tampered block is rejected: it fails is_block_valid against its
predecessor, and the two-block chain fails is_chain_valid. -/
def tamperRejected (difficulty : String) (b0 bt : Block) : Prop :=
  is_block_valid difficulty bt b0 = false ∧
  is_chain_valid difficulty [b0, bt] = false

theorem tamperRejected_of_not_valid (d : String) (b0 bt : Block)
    (h : ¬ is_block_valid d bt b0 = true) : tamperRejected d b0 bt := by
  have hf : is_block_valid d bt b0 = false := by
    rcases Bool.eq_false_or_eq_true (is_block_valid d bt b0) with hx | hx
    · exact absurd hx h
    · exact hx
  exact ⟨hf, by rw [chain_valid_pair d b0 bt]; exact hf⟩

/-- C7: given a block b1 valid against its predecessor b0, replacing any
single field of b1 without re-mining makes is_block_valid (and hence
is_chain_valid on the two-block chain) false. For the id, previous_hash
and hash fields this is unconditional. For the timestamp, data and nonce
fields the replacement changes the hash input string (decimal renderings
are injective and concatenation cancels), so the only escape is an
explicit SHA-256 collision, which the theorem then exhibits: this is the
precise content of the hash-mismatch argument for a real hash function. -/
theorem claim7_tamper_detection (difficulty : String) (b0 b1 : Block)
    (h : is_block_valid difficulty b1 b0 = true) :
    (∀ i, i ≠ b1.id → tamperRejected difficulty b0
      ⟨i, b1.hash, b1.previous_hash, b1.timestamp, b1.data, b1.nonce⟩) ∧
    (∀ p, p ≠ b1.previous_hash → tamperRejected difficulty b0
      ⟨b1.id, b1.hash, p, b1.timestamp, b1.data, b1.nonce⟩) ∧
    (∀ hh, hh ≠ b1.hash → tamperRejected difficulty b0
      ⟨b1.id, hh, b1.previous_hash, b1.timestamp, b1.data, b1.nonce⟩) ∧
    (∀ t, t ≠ b1.timestamp → tamperRejected difficulty b0
      ⟨b1.id, b1.hash, b1.previous_hash, t, b1.data, b1.nonce⟩ ∨ sha256Collision) ∧
    (∀ dt, dt ≠ b1.data → tamperRejected difficulty b0
      ⟨b1.id, b1.hash, b1.previous_hash, b1.timestamp, dt, b1.nonce⟩ ∨ sha256Collision) ∧
    (∀ n, n ≠ b1.nonce → tamperRejected difficulty b0
      ⟨b1.id, b1.hash, b1.previous_hash, b1.timestamp, b1.data, n⟩ ∨ sha256Collision) := by
  obtain ⟨h1, h2, h3, h4⟩ := (block_valid_iff difficulty b1 b0).mp h
  refine ⟨?_, ?_, ?_, ?_, ?_, ?_⟩
  · intro i hi
    refine tamperRejected_of_not_valid _ _ _ (fun hv => ?_)
    obtain ⟨g1, -, -, -⟩ := (block_valid_iff _ _ _).mp hv
    exact hi (g1.trans h1.symm)
  · intro p hp
    refine tamperRejected_of_not_valid _ _ _ (fun hv => ?_)
    obtain ⟨-, -, g3, -⟩ := (block_valid_iff _ _ _).mp hv
    exact hp (g3.trans h3.symm)
  · intro hh hne
    refine tamperRejected_of_not_valid _ _ _ (fun hv => ?_)
    obtain ⟨-, -, -, g4⟩ := (block_valid_iff _ _ _).mp hv
    exact hne (g4.symm.trans h4)
  · intro t ht
    by_cases hv : is_block_valid difficulty
        ⟨b1.id, b1.hash, b1.previous_hash, t, b1.data, b1.nonce⟩ b0 = true
    · right
      obtain ⟨-, -, -, g4⟩ := (block_valid_iff _ _ _).mp hv
      refine ⟨Nat.repr b1.id ++ b1.previous_hash ++ Int.repr t ++ b1.data ++
          Nat.repr b1.nonce,
        Nat.repr b1.id ++ b1.previous_hash ++ Int.repr b1.timestamp ++ b1.data ++
          Nat.repr b1.nonce, fun he => ?_, ?_⟩
      · have e1 := str_append_cancel_right _ _ _ he
        have e2 := str_append_cancel_right _ _ _ e1
        have e3 := str_append_cancel_left _ _ _ e2
        exact ht (intRepr_inj e3)
      · exact g4.trans h4.symm
    · exact Or.inl (tamperRejected_of_not_valid _ _ _ hv)
  · intro dt hd
    by_cases hv : is_block_valid difficulty
        ⟨b1.id, b1.hash, b1.previous_hash, b1.timestamp, dt, b1.nonce⟩ b0 = true
    · right
      obtain ⟨-, -, -, g4⟩ := (block_valid_iff _ _ _).mp hv
      refine ⟨Nat.repr b1.id ++ b1.previous_hash ++ Int.repr b1.timestamp ++ dt ++
          Nat.repr b1.nonce,
        Nat.repr b1.id ++ b1.previous_hash ++ Int.repr b1.timestamp ++ b1.data ++
          Nat.repr b1.nonce, fun he => ?_, ?_⟩
      · have e1 := str_append_cancel_right _ _ _ he
        have e2 := str_append_cancel_left _ _ _ e1
        exact hd e2
      · exact g4.trans h4.symm
    · exact Or.inl (tamperRejected_of_not_valid _ _ _ hv)
  · intro n hn
    by_cases hv : is_block_valid difficulty
        ⟨b1.id, b1.hash, b1.previous_hash, b1.timestamp, b1.data, n⟩ b0 = true
    · right
      obtain ⟨-, -, -, g4⟩ := (block_valid_iff _ _ _).mp hv
      refine ⟨Nat.repr b1.id ++ b1.previous_hash ++ Int.repr b1.timestamp ++
          b1.data ++ Nat.repr n,
        Nat.repr b1.id ++ b1.previous_hash ++ Int.repr b1.timestamp ++ b1.data ++
          Nat.repr b1.nonce, fun he => ?_, ?_⟩
      · have e1 := str_append_cancel_left _ _ _ he
        exact hn (natRepr_inj e1)
      · exact g4.trans h4.symm
    · exact Or.inl (tamperRejected_of_not_valid _ _ _ hv)

/-- The two blocks of the concrete tampering scenario: the mined genesis at
difficulty "" and a valid successor carrying the payload Hello. -/
def tamperB0 : Block :=
  ⟨0, "53436d494ed0a91e9989cb4aba0473c8e6b8837161e8ea018765ddaa983ec98c",
   "genesis", 0, "genesis", 0⟩

def tamperB1 : Block :=
  ⟨1, "a48becdc236e5a2e34f2c151ba0ff48d79d986d96233717057fecc821bda2e24",
   "53436d494ed0a91e9989cb4aba0473c8e6b8837161e8ea018765ddaa983ec98c",
   0, "Hello", 0⟩

set_option maxRecDepth 8000 in
/-- Closed instance of C7 on the concrete valid two-block chain. -/
theorem claim7_witness :
    (∀ i, i ≠ tamperB1.id → tamperRejected "" tamperB0
      ⟨i, tamperB1.hash, tamperB1.previous_hash, tamperB1.timestamp,
        tamperB1.data, tamperB1.nonce⟩) ∧
    (∀ p, p ≠ tamperB1.previous_hash → tamperRejected "" tamperB0
      ⟨tamperB1.id, tamperB1.hash, p, tamperB1.timestamp,
        tamperB1.data, tamperB1.nonce⟩) ∧
    (∀ hh, hh ≠ tamperB1.hash → tamperRejected "" tamperB0
      ⟨tamperB1.id, hh, tamperB1.previous_hash, tamperB1.timestamp,
        tamperB1.data, tamperB1.nonce⟩) ∧
    (∀ t, t ≠ tamperB1.timestamp → tamperRejected "" tamperB0
      ⟨tamperB1.id, tamperB1.hash, tamperB1.previous_hash, t,
        tamperB1.data, tamperB1.nonce⟩ ∨ sha256Collision) ∧
    (∀ dt, dt ≠ tamperB1.data → tamperRejected "" tamperB0
      ⟨tamperB1.id, tamperB1.hash, tamperB1.previous_hash, tamperB1.timestamp,
        dt, tamperB1.nonce⟩ ∨ sha256Collision) ∧
    (∀ n, n ≠ tamperB1.nonce → tamperRejected "" tamperB0
      ⟨tamperB1.id, tamperB1.hash, tamperB1.previous_hash, tamperB1.timestamp,
        tamperB1.data, n⟩ ∨ sha256Collision) :=
  claim7_tamper_detection "" tamperB0 tamperB1 (by decide)
